import Mathlib

/-!
Verification of the PEP 440 specifier → version-ranges conversion
(`crates/uv-pep440/src/version_ranges_specifier.rs`).

The conversion engine itself (`VersionRangesSpecifier` and its
`from_pep440_specifier`, `from_pep440_specifiers`, `from_release_specifier`,
`from_release_specifiers` constructors) is translated directly from the Rust
source.  The `Version` value type and the interval-algebra container
(`Ranges<Version>`) are external collaborators that are not part of the
source: they are modelled from the specification's description of their
interface and ordering.
-/

open Batteries

/-- Modelled from the spec: release segments are compared "lexicographically
with missing trailing segments treated as zero".  `padCmpNil ys` compares an
exhausted left list (padded with zeros) against the remaining segments `ys`. -/
def padCmpNil : List Nat → Ordering
  | [] => .eq
  | y :: ys => (compare 0 y).then (padCmpNil ys)

/-- Modelled from the spec: lexicographic comparison of release-segment lists,
with missing trailing segments treated as zero. -/
def padCmp : List Nat → List Nat → Ordering
  | [], ys => padCmpNil ys
  | x :: xs, [] => (compare x 0).then (padCmp xs [])
  | x :: xs, y :: ys => (compare x y).then (padCmp xs ys)

/-- A release-segment list that consists entirely of zeros. -/
def allZero : List Nat → Bool
  | [] => true
  | x :: xs => (x == 0) && allZero xs

theorem padCmpNil_eq_ite (ys : List Nat) :
    padCmpNil ys = if allZero ys then Ordering.eq else Ordering.lt := by
  induction ys with
  | nil => simp [padCmpNil, allZero]
  | cons y ys ih =>
    simp only [padCmpNil, allZero]
    rcases Nat.eq_zero_or_pos y with hy | hy
    · subst hy
      simpa [Nat.compare_eq_eq.mpr rfl, Ordering.then] using ih
    · have : compare 0 y = .lt := Nat.compare_eq_lt.mpr hy
      simp [this, Ordering.then, Nat.pos_iff_ne_zero.mp hy]

theorem padCmp_nil_right_eq_ite (xs : List Nat) :
    padCmp xs [] = if allZero xs then Ordering.eq else Ordering.gt := by
  induction xs with
  | nil => simp [padCmp, padCmpNil, allZero]
  | cons x xs ih =>
    simp only [padCmp, allZero]
    rcases Nat.eq_zero_or_pos x with hx | hx
    · subst hx
      simpa [Nat.compare_eq_eq.mpr rfl, Ordering.then] using ih
    · have : compare x 0 = .gt := Nat.compare_eq_gt.mpr hx
      simp [this, Ordering.then, Nat.pos_iff_ne_zero.mp hx]

theorem padCmpNil_ne_gt (ys : List Nat) : padCmpNil ys ≠ .gt := by
  rw [padCmpNil_eq_ite]; split <;> simp

/-- If the left list is all zeros, the padded comparison never yields `gt`. -/
theorem padCmp_ne_gt_of_allZero_left (xs : List Nat) (zs : List Nat)
    (h : allZero xs = true) : padCmp xs zs ≠ .gt := by
  induction xs generalizing zs with
  | nil => exact padCmpNil_ne_gt zs
  | cons x xs ih =>
    simp only [allZero, Bool.and_eq_true, beq_iff_eq] at h
    obtain ⟨rfl, hxs⟩ := h
    cases zs with
    | nil =>
      rw [padCmp_nil_right_eq_ite]
      simp [allZero, hxs]
    | cons z zs =>
      simp only [padCmp]
      rcases Nat.eq_zero_or_pos z with hz | hz
      · subst hz
        simpa [Nat.compare_eq_eq.mpr rfl, Ordering.then] using ih zs hxs
      · have : compare 0 z = .lt := Nat.compare_eq_lt.mpr hz
        simp [this, Ordering.then]

/-- If the right list is all zeros and the comparison is not `gt`, the left
list is all zeros as well. -/
theorem allZero_of_padCmp_ne_gt (xs ys : List Nat)
    (hy : allZero ys = true) (h : padCmp xs ys ≠ .gt) : allZero xs = true := by
  induction xs generalizing ys with
  | nil => simp [allZero]
  | cons x xs ih =>
    cases ys with
    | nil =>
      rw [padCmp_nil_right_eq_ite] at h
      by_contra hne
      simp [hne] at h
    | cons y ys =>
      simp only [allZero, Bool.and_eq_true, beq_iff_eq] at hy
      obtain ⟨rfl, hys⟩ := hy
      simp only [padCmp] at h
      have hx0 : compare x 0 ≠ .gt := by
        intro hgt
        simp [hgt, Ordering.then] at h
      have hx : x = 0 := Nat.le_antisymm (Nat.compare_ne_gt.mp hx0) (Nat.zero_le x)
      subst hx
      simp only [Nat.compare_eq_eq.mpr rfl, Ordering.then] at h
      simp [allZero, ih ys hys h]

theorem padCmp_swap (xs ys : List Nat) : (padCmp xs ys).swap = padCmp ys xs := by
  induction xs generalizing ys with
  | nil =>
    cases ys with
    | nil => rfl
    | cons y ys =>
      show (padCmpNil (y :: ys)).swap = padCmp (y :: ys) []
      rw [padCmpNil_eq_ite, padCmp_nil_right_eq_ite]
      cases hz : allZero (y :: ys) <;> simp [hz, Ordering.swap]
  | cons x xs ih =>
    cases ys with
    | nil =>
      show (padCmp (x :: xs) []).swap = padCmpNil (x :: xs)
      rw [padCmp_nil_right_eq_ite, padCmpNil_eq_ite]
      cases hz : allZero (x :: xs) <;> simp [hz, Ordering.swap]
    | cons y ys =>
      show ((compare x y).then (padCmp xs ys)).swap = (compare y x).then (padCmp ys xs)
      rw [Ordering.swap_then, Nat.compare_swap, ih ys]

instance : OrientedCmp padCmp where
  symm xs ys := padCmp_swap xs ys

theorem padCmp_le_trans {xs ys zs : List Nat}
    (h₁ : padCmp xs ys ≠ .gt) (h₂ : padCmp ys zs ≠ .gt) : padCmp xs zs ≠ .gt := by
  induction xs generalizing ys zs with
  | nil => exact padCmp_ne_gt_of_allZero_left [] zs rfl
  | cons x xs ih =>
    cases ys with
    | nil =>
      have hx : allZero (x :: xs) = true := allZero_of_padCmp_ne_gt _ [] rfl h₁
      exact padCmp_ne_gt_of_allZero_left _ zs hx
    | cons y ys =>
      cases zs with
      | nil =>
        have hy : allZero (y :: ys) = true := allZero_of_padCmp_ne_gt _ [] rfl h₂
        have hx : allZero (x :: xs) = true := allZero_of_padCmp_ne_gt _ _ hy h₁
        simp [padCmp_nil_right_eq_ite, hx]
      | cons z zs =>
        simp only [padCmp, ne_eq, Ordering.then_eq_gt, not_or, not_and] at h₁ h₂ ⊢
        have hxy : compare x y ≠ .gt := h₁.1
        have hyz : compare y z ≠ .gt := h₂.1
        have hxz : compare x z ≠ .gt := by
          rw [Nat.compare_ne_gt] at hxy hyz ⊢
          exact Nat.le_trans hxy hyz
        refine ⟨hxz, fun heq => ?_⟩
        have hxzeq : x = z := Nat.compare_eq_eq.mp heq
        subst hxzeq
        have hxy' : x = y := by
          rw [Nat.compare_ne_gt] at hxy hyz
          exact Nat.le_antisymm hxy hyz
        subst hxy'
        exact ih (h₁.2 (Nat.compare_eq_eq.mpr rfl)) (h₂.2 (Nat.compare_eq_eq.mpr rfl))

instance : TransCmp padCmp where
  le_trans h₁ h₂ := padCmp_le_trans h₁ h₂

/-- Modelled from the spec: the kind of a pre-release marker
(alpha, beta, or release candidate). -/
inductive PrereleaseKind where
  | alpha
  | beta
  | rc
deriving DecidableEq, Repr

/-- Modelled from the spec: a pre-release marker `{kind, number}`. -/
structure Prerelease where
  kind : PrereleaseKind
  number : Nat
deriving DecidableEq, Repr

/-- Modelled from the spec: an immutable, totally-ordered version value with an
epoch, a release-segment sequence, and optional pre-release / post-release /
development-release markers, plus the two synthetic comparison markers
(`min`, `max`) used only to build exclusive interval boundaries. -/
structure Version where
  epoch : Nat
  release : List Nat
  pre : Option Prerelease
  post : Option Nat
  dev : Option Nat
  min : Option Nat
  max : Option Nat
deriving DecidableEq, Repr

/-- Numeric code of a pre-release kind, ordered alpha < beta < rc. -/
def PrereleaseKind.code : PrereleaseKind → Nat
  | .alpha => 0
  | .beta => 1
  | .rc => 2

/-- Modelled from the spec: the sort key of the non-release suffix of a
version, for versions sharing the same epoch and release segments.  The
spec's order is: synthetic minimum < dev-release < pre-release <
final-release < post-release < synthetic maximum, with a dev marker layered
beneath each pre/post layer. -/
def Version.skey (v : Version) : List Nat :=
  match v.min with
  | some n => [0, n, 0, 0, 0, 0, 0]
  | none =>
    match v.max with
    | some n => [4, n, 0, 0, 0, 0, 0]
    | none =>
      match v.pre, v.post, v.dev with
      | none, none, some d => [1, 0, 0, 0, 0, 0, d]
      | some p, post, dev =>
          [2, p.kind.code, p.number,
           if post.isSome then 1 else 0, post.getD 0,
           if dev.isSome then 0 else 1, dev.getD 0]
      | none, post, dev =>
          [3, 0, 0,
           if post.isSome then 1 else 0, post.getD 0,
           if dev.isSome then 0 else 1, dev.getD 0]

/-- Modelled from the spec: the total order on versions — compare the epoch,
then the release segments (missing trailing segments treated as zero), then
the suffix sort key. -/
def vcmp : Version → Version → Ordering :=
  compareLex (Ordering.byKey Version.epoch compare)
    (compareLex (Ordering.byKey Version.release padCmp)
      (Ordering.byKey Version.skey padCmp))

instance : TransCmp vcmp :=
  inferInstanceAs (TransCmp (compareLex (Ordering.byKey Version.epoch compare)
    (compareLex (Ordering.byKey Version.release padCmp)
      (Ordering.byKey Version.skey padCmp))))

/-- Version order, non-strict: `a` sorts at or below `b`. -/
def vleb (a b : Version) : Bool := vcmp a b != .gt

/-- Version order, strict: `a` sorts strictly below `b`. -/
def vltb (a b : Version) : Bool := vcmp a b == .lt

theorem vleb_iff {a b : Version} : vleb a b = true ↔ vcmp a b ≠ .gt := by
  unfold vleb; cases vcmp a b <;> decide

theorem vltb_iff {a b : Version} : vltb a b = true ↔ vcmp a b = .lt := by
  unfold vltb; cases vcmp a b <;> decide

theorem vleb_refl (a : Version) : vleb a a = true := by
  rw [vleb_iff, show vcmp a a = .eq from OrientedCmp.cmp_refl]
  simp

theorem not_vleb_iff {a b : Version} : vleb a b = false ↔ vltb b a = true := by
  rw [← Bool.not_eq_true, vltb_iff, vleb_iff]
  simp only [ne_eq, not_not]
  exact OrientedCmp.cmp_eq_gt

theorem not_vltb_iff {a b : Version} : vltb a b = false ↔ vleb b a = true := by
  rw [← Bool.not_eq_true, vltb_iff, vleb_iff]
  constructor
  · intro h hgt
    exact h (OrientedCmp.cmp_eq_gt.mp hgt)
  · intro h hlt
    exact h (OrientedCmp.cmp_eq_gt.mpr hlt)

theorem vleb_trans {a b c : Version} (h₁ : vleb a b = true) (h₂ : vleb b c = true) :
    vleb a c = true := by
  rw [vleb_iff] at h₁ h₂ ⊢
  exact TransCmp.le_trans h₁ h₂

theorem vltb_of_vleb_of_vltb {a b c : Version} (h₁ : vleb a b = true)
    (h₂ : vltb b c = true) : vltb a c = true := by
  rw [vleb_iff] at h₁
  rw [vltb_iff] at h₂ ⊢
  exact TransCmp.le_lt_trans h₁ h₂

theorem vltb_of_vltb_of_vleb {a b c : Version} (h₁ : vltb a b = true)
    (h₂ : vleb b c = true) : vltb a c = true := by
  rw [vleb_iff] at h₂
  rw [vltb_iff] at h₁ ⊢
  exact TransCmp.lt_le_trans h₁ h₂

theorem vltb_trans {a b c : Version} (h₁ : vltb a b = true) (h₂ : vltb b c = true) :
    vltb a c = true := by
  rw [vltb_iff] at h₁ h₂ ⊢
  exact TransCmp.lt_trans h₁ h₂

theorem vleb_of_vltb {a b : Version} (h : vltb a b = true) : vleb a b = true := by
  rw [vltb_iff] at h
  rw [vleb_iff, h]
  simp

/-- Modelled from the spec: construct a version from release segments alone
(epoch zero, no pre/post/dev markers, no synthetic markers). -/
def Version.new (release : List Nat) : Version :=
  ⟨0, release, none, none, none, none, none⟩

/-- Modelled from the spec: copy of the version with the epoch replaced. -/
def Version.with_epoch (v : Version) (epoch : Nat) : Version :=
  { v with epoch := epoch }

/-- Modelled from the spec: copy of the version with the dev marker replaced. -/
def Version.with_dev (v : Version) (dev : Option Nat) : Version :=
  { v with dev := dev }

/-- Modelled from the spec: copy of the version with the post marker replaced. -/
def Version.with_post (v : Version) (post : Option Nat) : Version :=
  { v with post := post }

/-- Modelled from the spec: copy of the version with the pre marker replaced. -/
def Version.with_pre (v : Version) (pre : Option Prerelease) : Version :=
  { v with pre := pre }

/-- Modelled from the spec: copy of the version with the release segments
replaced. -/
def Version.with_release (v : Version) (release : List Nat) : Version :=
  { v with release := release }

/-- Modelled from the spec: copy of the version carrying the synthetic
"virtual minimum" marker, which sorts strictly below every concrete version
sharing the same release prefix. -/
def Version.with_min (v : Version) (m : Option Nat) : Version :=
  { v with min := m }

/-- Modelled from the spec: copy of the version carrying the synthetic
"virtual maximum" marker, which sorts strictly above every concrete version
sharing the same release prefix. -/
def Version.with_max (v : Version) (m : Option Nat) : Version :=
  { v with max := m }

/-- Modelled from the spec: the release-segment-only projection of a version —
epoch and release segments kept, all of pre/post/dev (and the synthetic
markers) dropped. -/
def Version.only_release (v : Version) : Version :=
  ⟨v.epoch, v.release, none, none, none, none, none⟩

/-- Modelled from the spec: whether the version has a pre-release component
(a version "marked as not-yet-final (alpha/beta/candidate)"). -/
def Version.any_prerelease (v : Version) : Bool := v.pre.isSome

/-- Modelled from the spec: a bound of an interval over versions, mirroring
the standard inclusive / exclusive / unbounded interval bounds. -/
inductive VBound where
  | unbounded
  | includes (v : Version)
  | excludes (v : Version)
deriving DecidableEq, Repr

/-- Whether `x` satisfies a lower interval bound. -/
def satLower (b : VBound) (x : Version) : Bool :=
  match b with
  | .unbounded => true
  | .includes a => vleb a x
  | .excludes a => vltb a x

/-- Whether `x` satisfies an upper interval bound. -/
def satUpper (b : VBound) (x : Version) : Bool :=
  match b with
  | .unbounded => true
  | .includes a => vleb x a
  | .excludes a => vltb x a

/-- Whether `x` lies inside one (lower bound, upper bound) interval. -/
def segContains (s : VBound × VBound) (x : Version) : Bool :=
  satLower s.1 x && satUpper s.2 x

/-- Modelled from the spec: the external interval-algebra container — a union
of intervals over the version order, represented as a list of
(lower bound, upper bound) pairs.  Only its membership semantics matter to
the conversion engine; the container is assumed correct by the spec. -/
structure VRanges where
  segments : List (VBound × VBound)
deriving DecidableEq, Repr

/-- Membership of a version in a range. -/
def VRanges.contains (r : VRanges) (x : Version) : Bool :=
  r.segments.any (fun s => segContains s x)

/-- Modelled from the spec: the range admitting every version. -/
def VRanges.full : VRanges := ⟨[(.unbounded, .unbounded)]⟩

/-- Modelled from the spec: the empty range. -/
def VRanges.empty : VRanges := ⟨[]⟩

/-- Modelled from the spec: the range containing exactly one version. -/
def VRanges.singleton (v : Version) : VRanges := ⟨[(.includes v, .includes v)]⟩

/-- Modelled from the spec: all versions strictly below `v`. -/
def VRanges.strictly_lower_than (v : Version) : VRanges :=
  ⟨[(.unbounded, .excludes v)]⟩

/-- Modelled from the spec: all versions at or below `v`. -/
def VRanges.lower_than (v : Version) : VRanges :=
  ⟨[(.unbounded, .includes v)]⟩

/-- Modelled from the spec: all versions strictly above `v`. -/
def VRanges.strictly_higher_than (v : Version) : VRanges :=
  ⟨[(.excludes v, .unbounded)]⟩

/-- Modelled from the spec: all versions at or above `v`. -/
def VRanges.higher_than (v : Version) : VRanges :=
  ⟨[(.includes v, .unbounded)]⟩

/-- Modelled from the spec: the half-open interval `[lo, hi)`. -/
def VRanges.from_range_bounds (lo hi : Version) : VRanges :=
  ⟨[(.includes lo, .excludes hi)]⟩

/-- Whether the first lower bound is at least as strict as the second. -/
def lowerStricter : VBound → VBound → Bool
  | _, .unbounded => true
  | .unbounded, _ => false
  | .includes a, .includes b => vleb b a
  | .includes a, .excludes b => vltb b a
  | .excludes a, .includes b => vleb b a
  | .excludes a, .excludes b => vleb b a

/-- Whether the first upper bound is at least as strict as the second. -/
def upperStricter : VBound → VBound → Bool
  | _, .unbounded => true
  | .unbounded, _ => false
  | .includes a, .includes b => vleb a b
  | .includes a, .excludes b => vltb a b
  | .excludes a, .includes b => vleb a b
  | .excludes a, .excludes b => vleb a b

/-- The stricter of two lower bounds. -/
def maxLower (b₁ b₂ : VBound) : VBound :=
  if lowerStricter b₁ b₂ then b₁ else b₂

/-- The stricter of two upper bounds. -/
def minUpper (b₁ b₂ : VBound) : VBound :=
  if upperStricter b₁ b₂ then b₁ else b₂

theorem lowerStricter_total {b₁ b₂ : VBound} (h : lowerStricter b₁ b₂ = false) :
    lowerStricter b₂ b₁ = true := by
  cases b₁ <;> cases b₂ <;> simp_all [lowerStricter, not_vleb_iff, not_vltb_iff,
    vleb_of_vltb]

theorem upperStricter_total {b₁ b₂ : VBound} (h : upperStricter b₁ b₂ = false) :
    upperStricter b₂ b₁ = true := by
  cases b₁ <;> cases b₂ <;> simp_all [upperStricter, not_vleb_iff, not_vltb_iff,
    vleb_of_vltb]

theorem satLower_of_stricter {b₁ b₂ : VBound} {x : Version}
    (hs : lowerStricter b₁ b₂ = true) (h : satLower b₁ x = true) :
    satLower b₂ x = true := by
  cases b₁ <;> cases b₂ <;> simp_all [lowerStricter, satLower]
  case includes.includes a b => exact vleb_trans hs h
  case includes.excludes a b => exact vltb_of_vltb_of_vleb hs h
  case excludes.includes a b => exact vleb_trans hs (vleb_of_vltb h)
  case excludes.excludes a b => exact vltb_of_vleb_of_vltb hs h

theorem satUpper_of_stricter {b₁ b₂ : VBound} {x : Version}
    (hs : upperStricter b₁ b₂ = true) (h : satUpper b₁ x = true) :
    satUpper b₂ x = true := by
  cases b₁ <;> cases b₂ <;> simp_all [upperStricter, satUpper]
  case includes.includes a b => exact vleb_trans h hs
  case includes.excludes a b => exact vltb_of_vleb_of_vltb h hs
  case excludes.includes a b => exact vleb_trans (vleb_of_vltb h) hs
  case excludes.excludes a b => exact vltb_of_vltb_of_vleb h hs

theorem satLower_maxLower {b₁ b₂ : VBound} {x : Version} :
    satLower (maxLower b₁ b₂) x = (satLower b₁ x && satLower b₂ x) := by
  unfold maxLower
  cases hs : lowerStricter b₁ b₂ with
  | true =>
    simp only [if_pos rfl]
    cases h₁ : satLower b₁ x
    · simp [h₁]
    · simp [h₁, satLower_of_stricter hs h₁]
  | false =>
    simp only [Bool.false_eq_true, if_neg, ite_false]
    cases h₂ : satLower b₂ x
    · simp [h₂]
    · simp [h₂, satLower_of_stricter (lowerStricter_total hs) h₂]

theorem satUpper_minUpper {b₁ b₂ : VBound} {x : Version} :
    satUpper (minUpper b₁ b₂) x = (satUpper b₁ x && satUpper b₂ x) := by
  unfold minUpper
  cases hs : upperStricter b₁ b₂ with
  | true =>
    simp only [if_pos rfl]
    cases h₁ : satUpper b₁ x
    · simp [h₁]
    · simp [h₁, satUpper_of_stricter hs h₁]
  | false =>
    simp only [Bool.false_eq_true, if_neg, ite_false]
    cases h₂ : satUpper b₂ x
    · simp [h₂]
    · simp [h₂, satUpper_of_stricter (upperStricter_total hs) h₂]

/-- Intersection of two segment lists: pairwise intersection of segments. -/
def interSegs (a b : List (VBound × VBound)) : List (VBound × VBound) :=
  a.flatMap (fun s₁ => b.map (fun s₂ => (maxLower s₁.1 s₂.1, minUpper s₁.2 s₂.2)))

theorem interSegs_map_any (s₁ : VBound × VBound) (b : List (VBound × VBound))
    (x : Version) :
    (b.map (fun s₂ => (maxLower s₁.1 s₂.1, minUpper s₁.2 s₂.2))).any
        (fun s => segContains s x)
      = (segContains s₁ x && b.any (fun s => segContains s x)) := by
  induction b with
  | nil => simp
  | cons s₂ b ihb =>
    simp only [List.map_cons, List.any_cons, ihb]
    have hseg : segContains (maxLower s₁.1 s₂.1, minUpper s₁.2 s₂.2) x
        = (segContains s₁ x && segContains s₂ x) := by
      simp only [segContains, satLower_maxLower, satUpper_minUpper]
      cases satLower s₁.1 x <;> cases satUpper s₁.2 x <;>
        cases satLower s₂.1 x <;> cases satUpper s₂.2 x <;> rfl
    rw [hseg]
    cases segContains s₁ x <;> cases segContains s₂ x <;>
      cases b.any (fun s => segContains s x) <;> rfl

theorem interSegs_any (a b : List (VBound × VBound)) (x : Version) :
    (interSegs a b).any (fun s => segContains s x)
      = (a.any (fun s => segContains s x) && b.any (fun s => segContains s x)) := by
  induction a with
  | nil => simp [interSegs]
  | cons s₁ a ih =>
    simp only [interSegs] at ih ⊢
    simp only [List.flatMap_cons, List.any_append, List.any_cons]
    rw [interSegs_map_any, ih]
    cases segContains s₁ x <;> cases a.any (fun s => segContains s x) <;>
      cases b.any (fun s => segContains s x) <;> rfl

/-- Modelled from the spec: intersection of two ranges. -/
def VRanges.intersection (r₁ r₂ : VRanges) : VRanges :=
  ⟨interSegs r₁.segments r₂.segments⟩

theorem VRanges.contains_intersection (r₁ r₂ : VRanges) (x : Version) :
    (r₁.intersection r₂).contains x = (r₁.contains x && r₂.contains x) :=
  interSegs_any r₁.segments r₂.segments x

/-- The complement of a single segment, as a list of segments. -/
def complementSeg (s : VBound × VBound) : List (VBound × VBound) :=
  (match s.1 with
   | .unbounded => []
   | .includes a => [(.unbounded, .excludes a)]
   | .excludes a => [(.unbounded, .includes a)]) ++
  (match s.2 with
   | .unbounded => []
   | .includes a => [(.excludes a, .unbounded)]
   | .excludes a => [(.includes a, .unbounded)])

theorem vltb_eq_not_vleb (a b : Version) : vltb a b = !vleb b a := by
  cases h : vleb b a
  · simp [not_vleb_iff.mp h]
  · simp [not_vltb_iff.mpr h]

theorem complementSeg_any (s : VBound × VBound) (x : Version) :
    (complementSeg s).any (fun t => segContains t x) = !segContains s x := by
  obtain ⟨l, u⟩ := s
  cases l <;> cases u <;>
    simp [complementSeg, segContains, satLower, satUpper, vltb_eq_not_vleb,
      Bool.not_and, Bool.not_not]

/-- Complement of a segment list: intersection of the per-segment complements. -/
def complementSegs : List (VBound × VBound) → List (VBound × VBound)
  | [] => [(.unbounded, .unbounded)]
  | s :: rest => interSegs (complementSeg s) (complementSegs rest)

/-- Modelled from the spec: complement of a range. -/
def VRanges.complement (r : VRanges) : VRanges := ⟨complementSegs r.segments⟩

theorem complementSegs_any (a : List (VBound × VBound)) (x : Version) :
    (complementSegs a).any (fun s => segContains s x)
      = !a.any (fun s => segContains s x) := by
  induction a with
  | nil => simp [complementSegs, segContains, satLower, satUpper]
  | cons s a ih =>
    simp only [complementSegs, interSegs_any, complementSeg_any, ih, List.any_cons,
      Bool.not_or]

theorem VRanges.contains_complement (r : VRanges) (x : Version) :
    r.complement.contains x = !r.contains x :=
  complementSegs_any r.segments x

theorem VRanges.contains_full (x : Version) : VRanges.full.contains x = true := by
  simp [VRanges.full, VRanges.contains, segContains, satLower, satUpper]

/-- Modelled from the spec: the ordered sequence of (lower bound, upper bound)
pairs of a range, as returned by its iteration accessor. -/
def VRanges.iter (r : VRanges) : List (VBound × VBound) := r.segments

/-- Modelled from the spec: the bounding pair of a range — the tightest single
interval enclosing all admitted versions, or none if the range is empty. -/
def VRanges.bounding_range (r : VRanges) : Option (VBound × VBound) :=
  match r.segments.head?, r.segments.getLast? with
  | some f, some l => some (f.1, l.2)
  | _, _ => none

/-- The closed set of ten constraint operators of a PEP 440 specifier. -/
inductive Operator where
  | equal
  | exactEqual
  | notEqual
  | tildeEqual
  | lessThan
  | lessThanEqual
  | greaterThan
  | greaterThanEqual
  | equalStar
  | notEqualStar
deriving DecidableEq, Repr

/-- Modelled from the spec: a version specifier `{operator, version}`,
produced by the excluded parsing layer. -/
structure VersionSpecifier where
  operator : Operator
  version : Version
deriving DecidableEq, Repr

/-- The conversion between a PEP 440 `VersionSpecifier` and a version range
failed (from `VersionRangesSpecifierError` in the source). -/
inductive VersionRangesSpecifierError where
  /-- The `~=` operator requires at least two release segments. -/
  | invalidTildeEquals (specifier : VersionSpecifier)
deriving DecidableEq, Repr

/-- A range of versions that can be used to satisfy a requirement (the
`VersionRangesSpecifier` newtype wrapper from the source). -/
structure VersionRangesSpecifier where
  ranges : VRanges
deriving DecidableEq, Repr

/-- Returns the bounds of the `VersionRangesSpecifier` (source: `iter`). -/
def VersionRangesSpecifier.iter (s : VersionRangesSpecifier) :
    List (VBound × VBound) :=
  s.ranges.iter

/-- Return the bounding range of the `VersionRangesSpecifier`
(source: `bounding_range`). -/
def VersionRangesSpecifier.bounding_range (s : VersionRangesSpecifier) :
    Option (VBound × VBound) :=
  s.ranges.bounding_range

/-- Conversion of a range into the wrapper (source: `impl From<Ranges<Version>>
for VersionRangesSpecifier`). -/
def VersionRangesSpecifier.fromRanges (range : VRanges) : VersionRangesSpecifier :=
  ⟨range⟩

/-- Conversion of the wrapper back into a range (source: `impl
From<VersionRangesSpecifier> for Ranges<Version>`). -/
def VersionRangesSpecifier.toRanges (specifier : VersionRangesSpecifier) : VRanges :=
  specifier.ranges

/-- The Rust slice pattern `[rest @ .., last, _]` of the `~=` branches: on a
release list with at least two segments, returns the list truncated to
all-but-last with the new last segment incremented by one; otherwise none. -/
def tildeSplit : List Nat → Option (List Nat)
  | [] => none
  | [_] => none
  | [last, _] => some [last + 1]
  | x :: xs => (tildeSplit xs).map (fun r => x :: r)

/-- The `*release.last_mut().unwrap() += 1` step of the `==*` / `!=*`
branches: increments the last element, or fails on the empty list (the
`unwrap` panic). -/
def incrementLast : List Nat → Option (List Nat)
  | [] => none
  | [x] => some [x + 1]
  | x :: xs => (incrementLast xs).map (fun r => x :: r)

/-- Convert the `VersionSpecifier` to a version range, using PEP 440
semantics (source: `from_pep440_specifier`).  The outer `Option` models the
possibility of a Rust panic (`unwrap` on an empty release): `none` is a
panic, `some (.error e)` the returned error, `some (.ok r)` the returned
range. -/
def from_pep440_specifier (specifier : VersionSpecifier) :
    Option (Except VersionRangesSpecifierError VersionRangesSpecifier) :=
  match specifier.operator with
  | .equal =>
    let version := specifier.version
    some (.ok ⟨VRanges.singleton version⟩)
  | .exactEqual =>
    let version := specifier.version
    some (.ok ⟨VRanges.singleton version⟩)
  | .notEqual =>
    let version := specifier.version
    some (.ok ⟨(VRanges.singleton version).complement⟩)
  | .tildeEqual =>
    match tildeSplit specifier.version.release with
    | none => some (.error (.invalidTildeEquals specifier))
    | some incremented =>
      let upper := ((Version.new incremented).with_epoch
        specifier.version.epoch).with_dev (some 0)
      let version := specifier.version
      some (.ok ⟨VRanges.from_range_bounds version upper⟩)
  | .lessThan =>
    let version := specifier.version
    if version.any_prerelease then
      some (.ok ⟨VRanges.strictly_lower_than version⟩)
    else
      some (.ok ⟨VRanges.strictly_lower_than (version.with_min (some 0))⟩)
  | .lessThanEqual =>
    let version := specifier.version
    some (.ok ⟨VRanges.lower_than version⟩)
  | .greaterThan =>
    let version := specifier.version
    match version.dev with
    | some dev => some (.ok ⟨VRanges.higher_than (version.with_dev (some (dev + 1)))⟩)
    | none =>
      match version.post with
      | some post =>
        some (.ok ⟨VRanges.higher_than (version.with_post (some (post + 1)))⟩)
      | none =>
        some (.ok ⟨VRanges.strictly_higher_than (version.with_max (some 0))⟩)
  | .greaterThanEqual =>
    let version := specifier.version
    some (.ok ⟨VRanges.higher_than version⟩)
  | .equalStar =>
    let low := specifier.version.with_dev (some 0)
    match low.post with
    | some post =>
      some (.ok ⟨VRanges.from_range_bounds low (low.with_post (some (post + 1)))⟩)
    | none =>
      match low.pre with
      | some pre =>
        some (.ok ⟨VRanges.from_range_bounds low
          (low.with_pre (some ⟨pre.kind, pre.number + 1⟩))⟩)
      | none =>
        match incrementLast low.release with
        | none => none
        | some release =>
          some (.ok ⟨VRanges.from_range_bounds low (low.with_release release)⟩)
  | .notEqualStar =>
    let low := specifier.version.with_dev (some 0)
    match low.post with
    | some post =>
      some (.ok ⟨(VRanges.from_range_bounds low
        (low.with_post (some (post + 1)))).complement⟩)
    | none =>
      match low.pre with
      | some pre =>
        some (.ok ⟨(VRanges.from_range_bounds low
          (low.with_pre (some ⟨pre.kind, pre.number + 1⟩))).complement⟩)
      | none =>
        match incrementLast low.release with
        | none => none
        | some release =>
          some (.ok ⟨(VRanges.from_range_bounds low
            (low.with_release release)).complement⟩)

/-- The fold of `from_pep440_specifiers`: starts from the given accumulated
range and intersects in each specifier's converted range, left to right,
short-circuiting on the first error (and propagating a modelled panic). -/
def pep440Fold (range : VRanges) :
    List VersionSpecifier →
      Option (Except VersionRangesSpecifierError VersionRangesSpecifier)
  | [] => some (.ok ⟨range⟩)
  | specifier :: rest =>
    match from_pep440_specifier specifier with
    | none => none
    | some (.error e) => some (.error e)
    | some (.ok r) => pep440Fold (range.intersection r.toRanges) rest

/-- Convert `VersionSpecifiers` to a version range, using PEP 440 semantics
(source: `from_pep440_specifiers`). -/
def from_pep440_specifiers (specifiers : List VersionSpecifier) :
    Option (Except VersionRangesSpecifierError VersionRangesSpecifier) :=
  pep440Fold VRanges.full specifiers

/-- Convert the `VersionSpecifier` to a version range, using release-only
semantics (source: `from_release_specifier`).  As for the PEP 440 mode, the
outer `Option` models a Rust panic. -/
def from_release_specifier (specifier : VersionSpecifier) :
    Option (Except VersionRangesSpecifierError VersionRangesSpecifier) :=
  match specifier.operator with
  | .equal =>
    let version := specifier.version.only_release
    some (.ok ⟨VRanges.singleton version⟩)
  | .exactEqual =>
    let version := specifier.version.only_release
    some (.ok ⟨VRanges.singleton version⟩)
  | .notEqual =>
    let version := specifier.version.only_release
    some (.ok ⟨(VRanges.singleton version).complement⟩)
  | .tildeEqual =>
    match tildeSplit specifier.version.release with
    | none => some (.error (.invalidTildeEquals specifier))
    | some incremented =>
      let upper := Version.new incremented
      let version := specifier.version.only_release
      some (.ok ⟨VRanges.from_range_bounds version upper⟩)
  | .lessThan =>
    let version := specifier.version.only_release
    some (.ok ⟨VRanges.strictly_lower_than version⟩)
  | .lessThanEqual =>
    let version := specifier.version.only_release
    some (.ok ⟨VRanges.lower_than version⟩)
  | .greaterThan =>
    let version := specifier.version.only_release
    some (.ok ⟨VRanges.strictly_higher_than version⟩)
  | .greaterThanEqual =>
    let version := specifier.version.only_release
    some (.ok ⟨VRanges.higher_than version⟩)
  | .equalStar =>
    let low := specifier.version.only_release
    match incrementLast low.release with
    | none => none
    | some release =>
      let high := low.with_release release
      some (.ok ⟨VRanges.from_range_bounds low high⟩)
  | .notEqualStar =>
    let low := specifier.version.only_release
    match incrementLast low.release with
    | none => none
    | some release =>
      let high := low.with_release release
      some (.ok ⟨(VRanges.from_range_bounds low high).complement⟩)

/-- The fold of `from_release_specifiers`, mirroring `pep440Fold`. -/
def releaseFold (range : VRanges) :
    List VersionSpecifier →
      Option (Except VersionRangesSpecifierError VersionRangesSpecifier)
  | [] => some (.ok ⟨range⟩)
  | specifier :: rest =>
    match from_release_specifier specifier with
    | none => none
    | some (.error e) => some (.error e)
    | some (.ok r) => releaseFold (range.intersection r.toRanges) rest

/-- Convert `VersionSpecifiers` to a version range, using release-only
semantics (source: `from_release_specifiers`). -/
def from_release_specifiers (specifiers : List VersionSpecifier) :
    Option (Except VersionRangesSpecifierError VersionRangesSpecifier) :=
  releaseFold VRanges.full specifiers

instance {ε α : Type} [DecidableEq ε] [DecidableEq α] : DecidableEq (Except ε α) :=
  fun a b =>
    match a, b with
    | .error e₁, .error e₂ =>
      if h : e₁ = e₂ then .isTrue (by rw [h])
      else .isFalse (fun hc => by cases hc; exact h rfl)
    | .error _, .ok _ => .isFalse (fun hc => by cases hc)
    | .ok _, .error _ => .isFalse (fun hc => by cases hc)
    | .ok a₁, .ok a₂ =>
      if h : a₁ = a₂ then .isTrue (by rw [h])
      else .isFalse (fun hc => by cases hc; exact h rfl)

theorem tildeSplit_cons (x : Nat) (xs : List Nat) (h : 2 ≤ xs.length) :
    tildeSplit (x :: xs) = (tildeSplit xs).map (fun r => x :: r) := by
  match xs with
  | [] => simp at h
  | [y] => simp at h
  | y :: z :: l => rfl

theorem tildeSplit_append (rest : List Nat) (last ig : Nat) :
    tildeSplit (rest ++ [last, ig]) = some (rest ++ [last + 1]) := by
  induction rest with
  | nil => rfl
  | cons x rest ih =>
    rw [List.cons_append, tildeSplit_cons x (rest ++ [last, ig]) (by simp), ih]
    rfl

theorem tildeSplit_isSome (xs : List Nat) (h : 2 ≤ xs.length) :
    (tildeSplit xs).isSome = true := by
  match xs with
  | [] => simp at h
  | [y] => simp at h
  | y :: z :: l =>
    obtain ⟨rest, last, ig, hx⟩ : ∃ rest last ig, y :: z :: l = rest ++ [last, ig] := by
      clear h
      induction l generalizing y z with
      | nil => exact ⟨[], y, z, rfl⟩
      | cons w l ihl =>
        obtain ⟨rest, last, ig, hzl⟩ := ihl z w
        exact ⟨y :: rest, last, ig, by rw [List.cons_append, ← hzl]⟩
    rw [hx, tildeSplit_append]
    rfl

theorem tildeSplit_eq_none_iff (xs : List Nat) :
    tildeSplit xs = none ↔ xs.length < 2 := by
  constructor
  · intro h
    by_contra hlen
    have := tildeSplit_isSome xs (by omega)
    rw [h] at this
    simp at this
  · intro h
    match xs with
    | [] => rfl
    | [x] => rfl
    | x :: y :: l =>
      simp at h
      omega

theorem incrementLast_cons (x : Nat) (xs : List Nat) (h : xs ≠ []) :
    incrementLast (x :: xs) = (incrementLast xs).map (fun r => x :: r) := by
  match xs with
  | [] => exact absurd rfl h
  | y :: l => rfl

theorem incrementLast_append (xs : List Nat) (n : Nat) :
    incrementLast (xs ++ [n]) = some (xs ++ [n + 1]) := by
  induction xs with
  | nil => rfl
  | cons x xs ih =>
    rw [List.cons_append, incrementLast_cons x (xs ++ [n]) (by simp), ih]
    rfl

theorem incrementLast_isSome (xs : List Nat) (h : xs ≠ []) :
    (incrementLast xs).isSome = true := by
  obtain ⟨ys, n, hx⟩ : ∃ ys n, xs = ys ++ [n] := by
    match xs with
    | [] => exact absurd rfl h
    | x :: l =>
      clear h
      induction l generalizing x with
      | nil => exact ⟨[], x, rfl⟩
      | cons y l ihl =>
        obtain ⟨ys, n, hyl⟩ := ihl y
        exact ⟨x :: ys, n, by rw [List.cons_append, ← hyl]⟩
  rw [hx, incrementLast_append]
  rfl

theorem padCmp_refl (xs : List Nat) : padCmp xs xs = .eq :=
  OrientedCmp.cmp_refl

/-- A version without the synthetic minimum marker has a suffix key whose
head entry is positive. -/
theorem skey_head_pos_of_min_none (x : Version) (h : x.min = none) :
    ∃ c t, x.skey = c :: t ∧ 0 < c := by
  unfold Version.skey
  rw [h]
  cases hm : x.max with
  | some n => exact ⟨4, _, rfl, by omega⟩
  | none =>
    cases hp : x.pre <;> cases hq : x.post <;> cases hd : x.dev
    all_goals exact ⟨_, _, rfl, by omega⟩

theorem VRanges.contains_singleton (v x : Version) :
    (VRanges.singleton v).contains x = (vleb v x && vleb x v) := by
  simp [VRanges.singleton, VRanges.contains, segContains, satLower, satUpper]

theorem VRanges.contains_strictly_lower_than (v x : Version) :
    (VRanges.strictly_lower_than v).contains x = vltb x v := by
  simp [VRanges.strictly_lower_than, VRanges.contains, segContains, satLower, satUpper]

theorem VRanges.contains_lower_than (v x : Version) :
    (VRanges.lower_than v).contains x = vleb x v := by
  simp [VRanges.lower_than, VRanges.contains, segContains, satLower, satUpper]

theorem VRanges.contains_strictly_higher_than (v x : Version) :
    (VRanges.strictly_higher_than v).contains x = vltb v x := by
  simp [VRanges.strictly_higher_than, VRanges.contains, segContains, satLower, satUpper]

theorem VRanges.contains_higher_than (v x : Version) :
    (VRanges.higher_than v).contains x = vleb v x := by
  simp [VRanges.higher_than, VRanges.contains, segContains, satLower, satUpper]

theorem VRanges.contains_from_range_bounds (lo hi x : Version) :
    (VRanges.from_range_bounds lo hi).contains x = (vleb lo x && vltb x hi) := by
  simp [VRanges.from_range_bounds, VRanges.contains, segContains, satLower, satUpper]

/-- C1: In strict (PEP 440) mode, converting a TildeEqual specifier whose
operand version `v` has at least two release segments yields the half-open
interval `[v, upper)`, where `upper` has `v`'s epoch, its release equal to
`v`'s release segments truncated to all-but-last with the new last segment
incremented by one, and its development-release marker forced to 0. -/
theorem claim_C1 (s : VersionSpecifier) (rest : List Nat) (last ig : Nat)
    (hop : s.operator = .tildeEqual)
    (hrel : s.version.release = rest ++ [last, ig]) :
    ∃ upper,
      from_pep440_specifier s
        = some (.ok ⟨VRanges.from_range_bounds s.version upper⟩) ∧
      upper.epoch = s.version.epoch ∧
      upper.release = rest ++ [last + 1] ∧
      upper.dev = some 0 ∧
      (∀ x, (VRanges.from_range_bounds s.version upper).contains x
          = (vleb s.version x && vltb x upper)) := by
  refine ⟨((Version.new (rest ++ [last + 1])).with_epoch s.version.epoch).with_dev
    (some 0), ?_, rfl, rfl, rfl, fun x => VRanges.contains_from_range_bounds _ _ x⟩
  simp [from_pep440_specifier, hop, hrel, tildeSplit_append]

theorem claim_C1_witness :
    ∃ upper,
      from_pep440_specifier ⟨.tildeEqual, ⟨0, [1, 4, 2], none, none, none, none, none⟩⟩
        = some (.ok ⟨VRanges.from_range_bounds
            ⟨0, [1, 4, 2], none, none, none, none, none⟩ upper⟩) ∧
      upper.epoch = (⟨0, [1, 4, 2], none, none, none, none, none⟩ : Version).epoch ∧
      upper.release = [1] ++ [4 + 1] ∧
      upper.dev = some 0 ∧
      (∀ x, (VRanges.from_range_bounds
          ⟨0, [1, 4, 2], none, none, none, none, none⟩ upper).contains x
        = (vleb ⟨0, [1, 4, 2], none, none, none, none, none⟩ x && vltb x upper)) :=
  claim_C1 ⟨.tildeEqual, ⟨0, [1, 4, 2], none, none, none, none, none⟩⟩ [1] 4 2 rfl rfl

/-- C2 counterexample: in release-only mode, the upper bound of the TildeEqual
interval does not keep the operand's epoch.  For `~=` on the version
`1!1.2` the code produces the interval from `1!1.2` (inclusive) to `0!2`
(exclusive) — an upper bound with epoch 0, not 1 — and the resulting set
differs from the claimed one: the claimed interval `[1!1.2, 1!2)` contains
`1!1.3` while the code's result does not. -/
theorem claim_C2_counterexample :
    from_release_specifier ⟨.tildeEqual, ⟨1, [1, 2], none, none, none, none, none⟩⟩
      = some (.ok ⟨VRanges.from_range_bounds
          ⟨1, [1, 2], none, none, none, none, none⟩
          ⟨0, [2], none, none, none, none, none⟩⟩) ∧
    (⟨0, [2], none, none, none, none, none⟩ : Version).epoch
      ≠ (⟨1, [1, 2], none, none, none, none, none⟩ : Version).epoch ∧
    (VRanges.from_range_bounds ⟨1, [1, 2], none, none, none, none, none⟩
        ⟨1, [2], none, none, none, none, none⟩).contains
      ⟨1, [1, 3], none, none, none, none, none⟩ = true ∧
    (VRanges.from_range_bounds ⟨1, [1, 2], none, none, none, none, none⟩
        ⟨0, [2], none, none, none, none, none⟩).contains
      ⟨1, [1, 3], none, none, none, none, none⟩ = false := by
  refine ⟨by decide, by decide, by decide, by decide⟩

/-- C2 (amended): In release-only mode, converting a TildeEqual specifier
whose operand version `v` has at least two release segments yields the
half-open interval `[lo, hi)` where `lo` is `only_release(v)` (which keeps
`v`'s epoch) and `hi` is built from the incremented release segments alone:
`hi`'s release is `v`'s release segments truncated to all-but-last with the
new last segment incremented by one, and `hi`'s epoch is 0 (the operand's
epoch is not preserved on the upper bound). -/
theorem claim_C2 (s : VersionSpecifier) (rest : List Nat) (last ig : Nat)
    (hop : s.operator = .tildeEqual)
    (hrel : s.version.release = rest ++ [last, ig]) :
    from_release_specifier s
      = some (.ok ⟨VRanges.from_range_bounds s.version.only_release
          (Version.new (rest ++ [last + 1]))⟩) ∧
    s.version.only_release.epoch = s.version.epoch ∧
    s.version.only_release.release = s.version.release ∧
    (Version.new (rest ++ [last + 1])).epoch = 0 ∧
    (Version.new (rest ++ [last + 1])).release = rest ++ [last + 1] ∧
    (∀ x, (VRanges.from_range_bounds s.version.only_release
        (Version.new (rest ++ [last + 1]))).contains x
      = (vleb s.version.only_release x && vltb x (Version.new (rest ++ [last + 1])))) := by
  refine ⟨?_, rfl, rfl, rfl, rfl, fun x => VRanges.contains_from_range_bounds _ _ x⟩
  simp [from_release_specifier, hop, hrel, tildeSplit_append]

theorem claim_C2_witness :
    from_release_specifier ⟨.tildeEqual, ⟨1, [3, 4], none, none, none, none, none⟩⟩
      = some (.ok ⟨VRanges.from_range_bounds
          (⟨1, [3, 4], none, none, none, none, none⟩ : Version).only_release
          (Version.new ([] ++ [3 + 1]))⟩) ∧
    (⟨1, [3, 4], none, none, none, none, none⟩ : Version).only_release.epoch
      = (⟨1, [3, 4], none, none, none, none, none⟩ : Version).epoch ∧
    (⟨1, [3, 4], none, none, none, none, none⟩ : Version).only_release.release
      = (⟨1, [3, 4], none, none, none, none, none⟩ : Version).release ∧
    (Version.new ([] ++ [3 + 1])).epoch = 0 ∧
    (Version.new ([] ++ [3 + 1])).release = [] ++ [3 + 1] ∧
    (∀ x, (VRanges.from_range_bounds
        (⟨1, [3, 4], none, none, none, none, none⟩ : Version).only_release
        (Version.new ([] ++ [3 + 1]))).contains x
      = (vleb (⟨1, [3, 4], none, none, none, none, none⟩ : Version).only_release x
          && vltb x (Version.new ([] ++ [3 + 1])))) :=
  claim_C2 ⟨.tildeEqual, ⟨1, [3, 4], none, none, none, none, none⟩⟩ [] 3 4 rfl rfl

/-- C3: In strict mode, converting a GreaterThan specifier on version `v`
yields: if `v` has a dev component, all versions at or above `v` with dev
incremented by one; otherwise if `v` has a post component, all versions at
or above `v` with post incremented by one; otherwise all versions strictly
above `with_max(0)` applied to `v`; in particular the range for
`GreaterThan(1.2.0.post1)` contains `1.2.0.post2` and does not contain
`1.2.0.post1`. -/
theorem claim_C3 (s : VersionSpecifier) (hop : s.operator = .greaterThan) :
    (∀ d, s.version.dev = some d →
      from_pep440_specifier s
        = some (.ok ⟨VRanges.higher_than (s.version.with_dev (some (d + 1)))⟩) ∧
      ∀ x, (VRanges.higher_than (s.version.with_dev (some (d + 1)))).contains x
          = vleb (s.version.with_dev (some (d + 1))) x) ∧
    (∀ p, s.version.dev = none → s.version.post = some p →
      from_pep440_specifier s
        = some (.ok ⟨VRanges.higher_than (s.version.with_post (some (p + 1)))⟩) ∧
      ∀ x, (VRanges.higher_than (s.version.with_post (some (p + 1)))).contains x
          = vleb (s.version.with_post (some (p + 1))) x) ∧
    (s.version.dev = none → s.version.post = none →
      from_pep440_specifier s
        = some (.ok ⟨VRanges.strictly_higher_than (s.version.with_max (some 0))⟩) ∧
      ∀ x, (VRanges.strictly_higher_than (s.version.with_max (some 0))).contains x
          = vltb (s.version.with_max (some 0)) x) ∧
    (∃ r, from_pep440_specifier
        ⟨.greaterThan, ⟨0, [1, 2, 0], none, some 1, none, none, none⟩⟩
        = some (.ok r) ∧
      r.ranges.contains ⟨0, [1, 2, 0], none, some 2, none, none, none⟩ = true ∧
      r.ranges.contains ⟨0, [1, 2, 0], none, some 1, none, none, none⟩ = false) := by
  refine ⟨?_, ?_, ?_, ?_⟩
  · intro d hd
    refine ⟨?_, fun x => VRanges.contains_higher_than _ x⟩
    simp [from_pep440_specifier, hop, hd]
  · intro p hd hp
    refine ⟨?_, fun x => VRanges.contains_higher_than _ x⟩
    simp [from_pep440_specifier, hop, hd, hp]
  · intro hd hp
    refine ⟨?_, fun x => VRanges.contains_strictly_higher_than _ x⟩
    simp [from_pep440_specifier, hop, hd, hp]
  · exact ⟨⟨VRanges.higher_than ⟨0, [1, 2, 0], none, some 2, none, none, none⟩⟩,
      by decide, by decide, by decide⟩

theorem claim_C3_witness :
    (from_pep440_specifier ⟨.greaterThan, ⟨0, [1, 0], none, none, some 3, none, none⟩⟩
      = some (.ok ⟨VRanges.higher_than
          ((⟨0, [1, 0], none, none, some 3, none, none⟩ : Version).with_dev
            (some (3 + 1)))⟩)) ∧
    (∃ r, from_pep440_specifier
        ⟨.greaterThan, ⟨0, [1, 2, 0], none, some 1, none, none, none⟩⟩
        = some (.ok r) ∧
      r.ranges.contains ⟨0, [1, 2, 0], none, some 2, none, none, none⟩ = true ∧
      r.ranges.contains ⟨0, [1, 2, 0], none, some 1, none, none, none⟩ = false) :=
  ⟨((claim_C3 ⟨.greaterThan, ⟨0, [1, 0], none, none, some 3, none, none⟩⟩ rfl).1
      3 rfl).1,
    (claim_C3 ⟨.greaterThan, ⟨0, [1, 0], none, none, some 3, none, none⟩⟩ rfl).2.2.2⟩

/-- C4: In strict mode, converting a LessThan specifier on version `v` yields
all versions strictly below `v` when `v` has a pre-release component, and
all versions strictly below `with_min(0)` applied to `v` when it has none,
so pre-releases of `v` itself are excluded from the admitted set. -/
theorem claim_C4 (s : VersionSpecifier) (hop : s.operator = .lessThan) :
    (s.version.pre.isSome = true →
      from_pep440_specifier s
        = some (.ok ⟨VRanges.strictly_lower_than s.version⟩) ∧
      ∀ x, (VRanges.strictly_lower_than s.version).contains x = vltb x s.version) ∧
    (s.version.pre = none →
      from_pep440_specifier s
        = some (.ok ⟨VRanges.strictly_lower_than (s.version.with_min (some 0))⟩) ∧
      (∀ x, (VRanges.strictly_lower_than (s.version.with_min (some 0))).contains x
          = vltb x (s.version.with_min (some 0))) ∧
      (∀ x, x.epoch = s.version.epoch → x.release = s.version.release →
        x.pre.isSome = true → x.min = none →
        (VRanges.strictly_lower_than (s.version.with_min (some 0))).contains x
          = false)) := by
  constructor
  · intro hpre
    refine ⟨?_, fun x => VRanges.contains_strictly_lower_than _ x⟩
    simp [from_pep440_specifier, hop, Version.any_prerelease, hpre]
  · intro hpre
    refine ⟨?_, fun x => VRanges.contains_strictly_lower_than _ x, ?_⟩
    · simp [from_pep440_specifier, hop, Version.any_prerelease, hpre]
    · intro x hep hrel hxpre hxmin
      rw [VRanges.contains_strictly_lower_than]
      obtain ⟨c, t, hsk, hc⟩ := skey_head_pos_of_min_none x hxmin
      have hmincmp : vcmp x (s.version.with_min (some 0)) = .gt := by
        show ((compare x.epoch s.version.epoch).then
          ((padCmp x.release s.version.release).then
            (padCmp x.skey (s.version.with_min (some 0)).skey))) = .gt
        rw [hep, hrel, Nat.compare_eq_eq.mpr rfl, padCmp_refl]
        have hskmin : (s.version.with_min (some 0)).skey = [0, 0, 0, 0, 0, 0, 0] := rfl
        rw [hskmin, hsk]
        show ((compare c 0).then (padCmp t [0, 0, 0, 0, 0, 0])) = .gt
        rw [Nat.compare_eq_gt.mpr hc]
        rfl
      show (vcmp x (s.version.with_min (some 0)) == .lt) = false
      rw [hmincmp]
      rfl

theorem claim_C4_witness :
    (from_pep440_specifier
        ⟨.lessThan, ⟨0, [1, 0], some ⟨.alpha, 1⟩, none, none, none, none⟩⟩
      = some (.ok ⟨VRanges.strictly_lower_than
          ⟨0, [1, 0], some ⟨.alpha, 1⟩, none, none, none, none⟩⟩)) ∧
    (from_pep440_specifier ⟨.lessThan, ⟨0, [1, 0], none, none, none, none, none⟩⟩
      = some (.ok ⟨VRanges.strictly_lower_than
          ((⟨0, [1, 0], none, none, none, none, none⟩ : Version).with_min
            (some 0))⟩)) ∧
    (VRanges.strictly_lower_than
        ((⟨0, [1, 0], none, none, none, none, none⟩ : Version).with_min
          (some 0))).contains
      ⟨0, [1, 0], some ⟨.beta, 2⟩, none, none, none, none⟩ = false :=
  ⟨((claim_C4 ⟨.lessThan, ⟨0, [1, 0], some ⟨.alpha, 1⟩, none, none, none, none⟩⟩
      rfl).1 rfl).1,
    ((claim_C4 ⟨.lessThan, ⟨0, [1, 0], none, none, none, none, none⟩⟩ rfl).2 rfl).1,
    ((claim_C4 ⟨.lessThan, ⟨0, [1, 0], none, none, none, none, none⟩⟩ rfl).2 rfl).2.2
      ⟨0, [1, 0], some ⟨.beta, 2⟩, none, none, none, none⟩ rfl rfl rfl rfl⟩

/-- C5: In release-only mode, converting `LessThan(v)` yields exactly the
versions strictly below `only_release(v)` and converting `GreaterThan(v)`
yields exactly the versions strictly above `only_release(v)`, with no
`with_min` or `with_max` adjustment applied in either case. -/
theorem claim_C5 (s : VersionSpecifier) :
    (s.operator = .lessThan →
      from_release_specifier s
        = some (.ok ⟨VRanges.strictly_lower_than s.version.only_release⟩) ∧
      ∀ x, (VRanges.strictly_lower_than s.version.only_release).contains x
          = vltb x s.version.only_release) ∧
    (s.operator = .greaterThan →
      from_release_specifier s
        = some (.ok ⟨VRanges.strictly_higher_than s.version.only_release⟩) ∧
      ∀ x, (VRanges.strictly_higher_than s.version.only_release).contains x
          = vltb s.version.only_release x) := by
  constructor
  · intro hop
    exact ⟨by simp [from_release_specifier, hop],
      fun x => VRanges.contains_strictly_lower_than _ x⟩
  · intro hop
    exact ⟨by simp [from_release_specifier, hop],
      fun x => VRanges.contains_strictly_higher_than _ x⟩

theorem claim_C5_witness :
    (from_release_specifier ⟨.lessThan, ⟨0, [3, 13], none, none, none, none, none⟩⟩
      = some (.ok ⟨VRanges.strictly_lower_than
          (⟨0, [3, 13], none, none, none, none, none⟩ : Version).only_release⟩)) ∧
    (from_release_specifier ⟨.greaterThan, ⟨0, [3, 13], none, none, none, none, none⟩⟩
      = some (.ok ⟨VRanges.strictly_higher_than
          (⟨0, [3, 13], none, none, none, none, none⟩ : Version).only_release⟩)) :=
  ⟨((claim_C5 ⟨.lessThan, ⟨0, [3, 13], none, none, none, none, none⟩⟩).1 rfl).1,
    ((claim_C5 ⟨.greaterThan, ⟨0, [3, 13], none, none, none, none, none⟩⟩).2 rfl).1⟩

/-- C6: In strict mode, converting an EqualStar specifier on version `v`
yields the half-open interval `[low, high)` with `low` equal to `v` with its
dev marker forced to 0, and `high` equal to `low` with: its post number
incremented by one if `v` has a post component; otherwise its pre-release
number incremented by one with the same kind if `v` has a pre component;
otherwise its last release segment incremented by one; and the NotEqualStar
conversion of the same operand is the exact complement of that interval. -/
theorem claim_C6 (s : VersionSpecifier) (hop : s.operator = .equalStar) :
    (∀ p, s.version.post = some p →
      from_pep440_specifier s = some (.ok ⟨VRanges.from_range_bounds
        (s.version.with_dev (some 0))
        ((s.version.with_dev (some 0)).with_post (some (p + 1)))⟩)) ∧
    (∀ pr, s.version.post = none → s.version.pre = some pr →
      from_pep440_specifier s = some (.ok ⟨VRanges.from_range_bounds
        (s.version.with_dev (some 0))
        ((s.version.with_dev (some 0)).with_pre (some ⟨pr.kind, pr.number + 1⟩))⟩)) ∧
    (∀ rest n, s.version.post = none → s.version.pre = none →
      s.version.release = rest ++ [n] →
      from_pep440_specifier s = some (.ok ⟨VRanges.from_range_bounds
        (s.version.with_dev (some 0))
        ((s.version.with_dev (some 0)).with_release (rest ++ [n + 1]))⟩)) ∧
    (∀ r r', from_pep440_specifier s = some (.ok r) →
      from_pep440_specifier ⟨.notEqualStar, s.version⟩ = some (.ok r') →
      ∀ x, r'.ranges.contains x = !r.ranges.contains x) := by
  refine ⟨?_, ?_, ?_, ?_⟩
  · intro p hp
    simp [from_pep440_specifier, hop, Version.with_dev, hp]
  · intro pr hp hpr
    simp [from_pep440_specifier, hop, Version.with_dev, hp, hpr]
  · intro rest n hp hpr hrel
    simp [from_pep440_specifier, hop, Version.with_dev, hp, hpr, hrel,
      incrementLast_append]
  · intro r r' hr hr' x
    cases hp : s.version.post with
    | some p =>
      simp only [from_pep440_specifier, hop, Version.with_dev, hp,
        Option.some.injEq, Except.ok.injEq] at hr hr'
      rw [← hr, ← hr']
      exact VRanges.contains_complement _ x
    | none =>
      cases hpr : s.version.pre with
      | some pr =>
        simp only [from_pep440_specifier, hop, Version.with_dev, hp, hpr,
          Option.some.injEq, Except.ok.injEq] at hr hr'
        rw [← hr, ← hr']
        exact VRanges.contains_complement _ x
      | none =>
        cases hinc : incrementLast s.version.release with
        | none =>
          simp [from_pep440_specifier, hop, Version.with_dev, hp, hpr, hinc] at hr
        | some inc =>
          simp only [from_pep440_specifier, hop, Version.with_dev, hp, hpr, hinc,
            Option.some.injEq, Except.ok.injEq] at hr hr'
          rw [← hr, ← hr']
          exact VRanges.contains_complement _ x

theorem claim_C6_witness :
    (from_pep440_specifier
        ⟨.equalStar, ⟨0, [1, 4], none, none, none, none, none⟩⟩
      = some (.ok ⟨VRanges.from_range_bounds
          ((⟨0, [1, 4], none, none, none, none, none⟩ : Version).with_dev (some 0))
          (((⟨0, [1, 4], none, none, none, none, none⟩ : Version).with_dev
            (some 0)).with_release ([1] ++ [4 + 1]))⟩)) ∧
    (∀ x, (⟨(VRanges.from_range_bounds
        ((⟨0, [1, 4], none, none, none, none, none⟩ : Version).with_dev (some 0))
        (((⟨0, [1, 4], none, none, none, none, none⟩ : Version).with_dev
          (some 0)).with_release [1, 5])).complement⟩ :
            VersionRangesSpecifier).ranges.contains x
      = !(⟨VRanges.from_range_bounds
          ((⟨0, [1, 4], none, none, none, none, none⟩ : Version).with_dev (some 0))
          (((⟨0, [1, 4], none, none, none, none, none⟩ : Version).with_dev
            (some 0)).with_release [1, 5])⟩ :
              VersionRangesSpecifier).ranges.contains x) :=
  ⟨(claim_C6 ⟨.equalStar, ⟨0, [1, 4], none, none, none, none, none⟩⟩ rfl).2.2.1
      [1] 4 rfl rfl rfl,
    (claim_C6 ⟨.equalStar, ⟨0, [1, 4], none, none, none, none, none⟩⟩ rfl).2.2.2
      _ _ rfl rfl⟩

theorem pep440Fold_ok_iff (l : List VersionSpecifier) (acc : VRanges)
    (r : VersionRangesSpecifier) (h : pep440Fold acc l = some (.ok r)) (x : Version) :
    r.ranges.contains x = true ↔ (acc.contains x = true ∧
      ∀ s ∈ l, ∃ rs, from_pep440_specifier s = some (.ok rs) ∧
        rs.ranges.contains x = true) := by
  induction l generalizing acc with
  | nil =>
    simp only [pep440Fold, Option.some.injEq, Except.ok.injEq] at h
    rw [← h]
    simp
  | cons s rest ih =>
    simp only [pep440Fold] at h
    cases hs : from_pep440_specifier s with
    | none => simp [hs] at h
    | some exc =>
      cases exc with
      | error e => simp [hs] at h
      | ok rs =>
        rw [hs] at h
        rw [ih _ h, VRanges.contains_intersection]
        constructor
        · rintro ⟨hin, hall⟩
          rw [Bool.and_eq_true] at hin
          refine ⟨hin.1, fun t ht => ?_⟩
          rcases List.mem_cons.mp ht with rfl | ht'
          · exact ⟨rs, hs, hin.2⟩
          · exact hall t ht'
        · rintro ⟨hacc, hall⟩
          obtain ⟨rs', hs', hc'⟩ := hall s (List.mem_cons_self s rest)
          rw [hs] at hs'
          obtain rfl : rs = rs' := by
            injection hs' with hs''
            injection hs''
          refine ⟨by rw [Bool.and_eq_true]; exact ⟨hacc, hc'⟩, fun t ht => ?_⟩
          exact hall t (List.mem_cons_of_mem s ht)

theorem releaseFold_ok_iff (l : List VersionSpecifier) (acc : VRanges)
    (r : VersionRangesSpecifier) (h : releaseFold acc l = some (.ok r)) (x : Version) :
    r.ranges.contains x = true ↔ (acc.contains x = true ∧
      ∀ s ∈ l, ∃ rs, from_release_specifier s = some (.ok rs) ∧
        rs.ranges.contains x = true) := by
  induction l generalizing acc with
  | nil =>
    simp only [releaseFold, Option.some.injEq, Except.ok.injEq] at h
    rw [← h]
    simp
  | cons s rest ih =>
    simp only [releaseFold] at h
    cases hs : from_release_specifier s with
    | none => simp [hs] at h
    | some exc =>
      cases exc with
      | error e => simp [hs] at h
      | ok rs =>
        rw [hs] at h
        rw [ih _ h, VRanges.contains_intersection]
        constructor
        · rintro ⟨hin, hall⟩
          rw [Bool.and_eq_true] at hin
          refine ⟨hin.1, fun t ht => ?_⟩
          rcases List.mem_cons.mp ht with rfl | ht'
          · exact ⟨rs, hs, hin.2⟩
          · exact hall t ht'
        · rintro ⟨hacc, hall⟩
          obtain ⟨rs', hs', hc'⟩ := hall s (List.mem_cons_self s rest)
          rw [hs] at hs'
          obtain rfl : rs = rs' := by
            injection hs' with hs''
            injection hs''
          refine ⟨by rw [Bool.and_eq_true]; exact ⟨hacc, hc'⟩, fun t ht => ?_⟩
          exact hall t (List.mem_cons_of_mem s ht)

/-- C7: For every specifier set `S` on which no member's conversion fails,
the set-level conversion (in either mode) returns a range equal, as a set of
versions, to the intersection of the single-specifier conversions of all
members of `S`; and for the empty specifier set it returns the full range,
of which every version is a member. -/
theorem claim_C7 :
    (∀ l r x, from_pep440_specifiers l = some (.ok r) →
      (r.ranges.contains x = true ↔
        ∀ s ∈ l, ∃ rs, from_pep440_specifier s = some (.ok rs) ∧
          rs.ranges.contains x = true)) ∧
    (∀ l r x, from_release_specifiers l = some (.ok r) →
      (r.ranges.contains x = true ↔
        ∀ s ∈ l, ∃ rs, from_release_specifier s = some (.ok rs) ∧
          rs.ranges.contains x = true)) ∧
    from_pep440_specifiers [] = some (.ok ⟨VRanges.full⟩) ∧
    from_release_specifiers [] = some (.ok ⟨VRanges.full⟩) ∧
    (∀ x, VRanges.full.contains x = true) := by
  refine ⟨?_, ?_, rfl, rfl, VRanges.contains_full⟩
  · intro l r x h
    rw [pep440Fold_ok_iff l VRanges.full r h x]
    simp [VRanges.contains_full]
  · intro l r x h
    rw [releaseFold_ok_iff l VRanges.full r h x]
    simp [VRanges.contains_full]

theorem claim_C7_witness :
    ((⟨VRanges.full.intersection
        (VRanges.singleton ⟨0, [2, 0], none, none, none, none, none⟩)⟩ :
          VersionRangesSpecifier).ranges.contains
        ⟨0, [2, 0], none, none, none, none, none⟩ = true ↔
      ∀ s ∈ [(⟨.equal, ⟨0, [2, 0], none, none, none, none, none⟩⟩ :
          VersionSpecifier)],
        ∃ rs, from_pep440_specifier s = some (.ok rs) ∧
          rs.ranges.contains ⟨0, [2, 0], none, none, none, none, none⟩ = true) ∧
    from_pep440_specifiers [] = some (.ok ⟨VRanges.full⟩) :=
  ⟨claim_C7.1 [⟨.equal, ⟨0, [2, 0], none, none, none, none, none⟩⟩]
      ⟨VRanges.full.intersection
        (VRanges.singleton ⟨0, [2, 0], none, none, none, none, none⟩)⟩
      ⟨0, [2, 0], none, none, none, none, none⟩ rfl,
    claim_C7.2.2.1⟩

theorem from_pep440_specifier_ne_error_of_ne_tilde (s : VersionSpecifier)
    (h : s.operator ≠ .tildeEqual) (e : VersionRangesSpecifierError) :
    from_pep440_specifier s ≠ some (.error e) := by
  intro hc
  rcases s with ⟨op, v⟩
  cases op <;>
    first
      | exact h rfl
      | (simp only [from_pep440_specifier] at hc
         repeat' split at hc
         all_goals simp at hc)

theorem from_release_specifier_ne_error_of_ne_tilde (s : VersionSpecifier)
    (h : s.operator ≠ .tildeEqual) (e : VersionRangesSpecifierError) :
    from_release_specifier s ≠ some (.error e) := by
  intro hc
  rcases s with ⟨op, v⟩
  cases op <;>
    first
      | exact h rfl
      | (simp only [from_release_specifier] at hc
         repeat' split at hc
         all_goals simp at hc)

theorem from_pep440_specifier_ok (s : VersionSpecifier)
    (hne : s.version.release ≠ [])
    (h : ¬(s.operator = .tildeEqual ∧ s.version.release.length < 2)) :
    ∃ r, from_pep440_specifier s = some (.ok r) := by
  rcases s with ⟨op, v⟩
  cases op
  case tildeEqual =>
    have hlen : 2 ≤ v.release.length := by
      by_contra hlt
      exact h ⟨rfl, show v.release.length < 2 by omega⟩
    obtain ⟨inc, hinc⟩ : ∃ inc, tildeSplit v.release = some inc := by
      have := tildeSplit_isSome v.release hlen
      cases hi : tildeSplit v.release
      · rw [hi] at this; simp at this
      · exact ⟨_, rfl⟩
    refine ⟨⟨VRanges.from_range_bounds v
      (((Version.new inc).with_epoch v.epoch).with_dev (some 0))⟩, ?_⟩
    simp [from_pep440_specifier, hinc]
  case lessThan =>
    by_cases hp : v.any_prerelease
    · refine ⟨⟨VRanges.strictly_lower_than v⟩, ?_⟩
      simp [from_pep440_specifier, hp]
    · refine ⟨⟨VRanges.strictly_lower_than (v.with_min (some 0))⟩, ?_⟩
      simp [from_pep440_specifier, hp]
  case greaterThan =>
    cases hd : v.dev with
    | some d =>
      refine ⟨⟨VRanges.higher_than (v.with_dev (some (d + 1)))⟩, ?_⟩
      simp [from_pep440_specifier, hd]
    | none =>
      cases hq : v.post with
      | some p =>
        refine ⟨⟨VRanges.higher_than (v.with_post (some (p + 1)))⟩, ?_⟩
        simp [from_pep440_specifier, hd, hq]
      | none =>
        refine ⟨⟨VRanges.strictly_higher_than (v.with_max (some 0))⟩, ?_⟩
        simp [from_pep440_specifier, hd, hq]
  case equalStar =>
    cases hq : v.post with
    | some p =>
      refine ⟨⟨VRanges.from_range_bounds (v.with_dev (some 0))
        ((v.with_dev (some 0)).with_post (some (p + 1)))⟩, ?_⟩
      simp [from_pep440_specifier, Version.with_dev, hq]
    | none =>
      cases hpr : v.pre with
      | some pr =>
        refine ⟨⟨VRanges.from_range_bounds (v.with_dev (some 0))
          ((v.with_dev (some 0)).with_pre (some ⟨pr.kind, pr.number + 1⟩))⟩, ?_⟩
        simp [from_pep440_specifier, Version.with_dev, hq, hpr]
      | none =>
        obtain ⟨inc, hinc⟩ : ∃ inc, incrementLast v.release = some inc := by
          have := incrementLast_isSome v.release hne
          cases hi : incrementLast v.release
          · rw [hi] at this; simp at this
          · exact ⟨_, rfl⟩
        refine ⟨⟨VRanges.from_range_bounds (v.with_dev (some 0))
          ((v.with_dev (some 0)).with_release inc)⟩, ?_⟩
        simp [from_pep440_specifier, Version.with_dev, hq, hpr, hinc]
  case notEqualStar =>
    cases hq : v.post with
    | some p =>
      refine ⟨⟨(VRanges.from_range_bounds (v.with_dev (some 0))
        ((v.with_dev (some 0)).with_post (some (p + 1)))).complement⟩, ?_⟩
      simp [from_pep440_specifier, Version.with_dev, hq]
    | none =>
      cases hpr : v.pre with
      | some pr =>
        refine ⟨⟨(VRanges.from_range_bounds (v.with_dev (some 0))
          ((v.with_dev (some 0)).with_pre (some ⟨pr.kind, pr.number + 1⟩))).complement⟩, ?_⟩
        simp [from_pep440_specifier, Version.with_dev, hq, hpr]
      | none =>
        obtain ⟨inc, hinc⟩ : ∃ inc, incrementLast v.release = some inc := by
          have := incrementLast_isSome v.release hne
          cases hi : incrementLast v.release
          · rw [hi] at this; simp at this
          · exact ⟨_, rfl⟩
        refine ⟨⟨(VRanges.from_range_bounds (v.with_dev (some 0))
          ((v.with_dev (some 0)).with_release inc)).complement⟩, ?_⟩
        simp [from_pep440_specifier, Version.with_dev, hq, hpr, hinc]
  case equal => exact ⟨⟨VRanges.singleton v⟩, rfl⟩
  case exactEqual => exact ⟨⟨VRanges.singleton v⟩, rfl⟩
  case notEqual => exact ⟨⟨(VRanges.singleton v).complement⟩, rfl⟩
  case lessThanEqual => exact ⟨⟨VRanges.lower_than v⟩, rfl⟩
  case greaterThanEqual => exact ⟨⟨VRanges.higher_than v⟩, rfl⟩

theorem from_release_specifier_ok (s : VersionSpecifier)
    (hne : s.version.release ≠ [])
    (h : ¬(s.operator = .tildeEqual ∧ s.version.release.length < 2)) :
    ∃ r, from_release_specifier s = some (.ok r) := by
  rcases s with ⟨op, v⟩
  cases op
  case tildeEqual =>
    have hlen : 2 ≤ v.release.length := by
      by_contra hlt
      exact h ⟨rfl, show v.release.length < 2 by omega⟩
    obtain ⟨inc, hinc⟩ : ∃ inc, tildeSplit v.release = some inc := by
      have := tildeSplit_isSome v.release hlen
      cases hi : tildeSplit v.release
      · rw [hi] at this; simp at this
      · exact ⟨_, rfl⟩
    refine ⟨⟨VRanges.from_range_bounds v.only_release (Version.new inc)⟩, ?_⟩
    simp [from_release_specifier, hinc]
  case equalStar =>
    obtain ⟨inc, hinc⟩ : ∃ inc, incrementLast v.release = some inc := by
      have := incrementLast_isSome v.release hne
      cases hi : incrementLast v.release
      · rw [hi] at this; simp at this
      · exact ⟨_, rfl⟩
    refine ⟨⟨VRanges.from_range_bounds v.only_release
      (v.only_release.with_release inc)⟩, ?_⟩
    simp [from_release_specifier, Version.only_release, hinc]
  case notEqualStar =>
    obtain ⟨inc, hinc⟩ : ∃ inc, incrementLast v.release = some inc := by
      have := incrementLast_isSome v.release hne
      cases hi : incrementLast v.release
      · rw [hi] at this; simp at this
      · exact ⟨_, rfl⟩
    refine ⟨⟨(VRanges.from_range_bounds v.only_release
      (v.only_release.with_release inc)).complement⟩, ?_⟩
    simp [from_release_specifier, Version.only_release, hinc]
  case equal => exact ⟨⟨VRanges.singleton v.only_release⟩, rfl⟩
  case exactEqual => exact ⟨⟨VRanges.singleton v.only_release⟩, rfl⟩
  case notEqual => exact ⟨⟨(VRanges.singleton v.only_release).complement⟩, rfl⟩
  case lessThan => exact ⟨⟨VRanges.strictly_lower_than v.only_release⟩, rfl⟩
  case lessThanEqual => exact ⟨⟨VRanges.lower_than v.only_release⟩, rfl⟩
  case greaterThan => exact ⟨⟨VRanges.strictly_higher_than v.only_release⟩, rfl⟩
  case greaterThanEqual => exact ⟨⟨VRanges.higher_than v.only_release⟩, rfl⟩

theorem pep440Fold_error_append (init : List VersionSpecifier) :
    ∀ (acc : VRanges) (s : VersionSpecifier) (rest : List VersionSpecifier)
      (e : VersionRangesSpecifierError),
      (∀ p ∈ init, ∃ rp, from_pep440_specifier p = some (.ok rp)) →
      from_pep440_specifier s = some (.error e) →
      pep440Fold acc (init ++ s :: rest) = some (.error e) := by
  induction init with
  | nil =>
    intro acc s rest e _ hs
    simp [pep440Fold, hs]
  | cons p init ih =>
    intro acc s rest e hall hs
    obtain ⟨rp, hp⟩ := hall p (List.mem_cons_self p init)
    simp only [List.cons_append, pep440Fold, hp]
    exact ih _ s rest e (fun q hq => hall q (List.mem_cons_of_mem p hq)) hs

theorem releaseFold_error_append (init : List VersionSpecifier) :
    ∀ (acc : VRanges) (s : VersionSpecifier) (rest : List VersionSpecifier)
      (e : VersionRangesSpecifierError),
      (∀ p ∈ init, ∃ rp, from_release_specifier p = some (.ok rp)) →
      from_release_specifier s = some (.error e) →
      releaseFold acc (init ++ s :: rest) = some (.error e) := by
  induction init with
  | nil =>
    intro acc s rest e _ hs
    simp [releaseFold, hs]
  | cons p init ih =>
    intro acc s rest e hall hs
    obtain ⟨rp, hp⟩ := hall p (List.mem_cons_self p init)
    simp only [List.cons_append, releaseFold, hp]
    exact ih _ s rest e (fun q hq => hall q (List.mem_cons_of_mem p hq)) hs

theorem from_pep440_specifier_error_iff (s : VersionSpecifier) :
    from_pep440_specifier s = some (.error (.invalidTildeEquals s))
      ↔ (s.operator = .tildeEqual ∧ s.version.release.length < 2) := by
  constructor
  · intro hc
    by_cases hop : s.operator = .tildeEqual
    · refine ⟨hop, ?_⟩
      rw [← tildeSplit_eq_none_iff]
      cases hi : tildeSplit s.version.release with
      | none => rfl
      | some inc =>
        rcases s with ⟨op, v⟩
        cases hop
        simp [from_pep440_specifier, hi] at hc
    · exact absurd hc (from_pep440_specifier_ne_error_of_ne_tilde s hop _)
  · rintro ⟨hop, hlen⟩
    have hnone : tildeSplit s.version.release = none :=
      (tildeSplit_eq_none_iff _).mpr hlen
    rcases s with ⟨op, v⟩
    cases hop
    simp [from_pep440_specifier, hnone]

theorem from_release_specifier_error_iff (s : VersionSpecifier) :
    from_release_specifier s = some (.error (.invalidTildeEquals s))
      ↔ (s.operator = .tildeEqual ∧ s.version.release.length < 2) := by
  constructor
  · intro hc
    by_cases hop : s.operator = .tildeEqual
    · refine ⟨hop, ?_⟩
      rw [← tildeSplit_eq_none_iff]
      cases hi : tildeSplit s.version.release with
      | none => rfl
      | some inc =>
        rcases s with ⟨op, v⟩
        cases hop
        simp [from_release_specifier, hi] at hc
    · exact absurd hc (from_release_specifier_ne_error_of_ne_tilde s hop _)
  · rintro ⟨hop, hlen⟩
    have hnone : tildeSplit s.version.release = none :=
      (tildeSplit_eq_none_iff _).mpr hlen
    rcases s with ⟨op, v⟩
    cases hop
    simp [from_release_specifier, hnone]

theorem from_pep440_specifier_error_shape (s : VersionSpecifier)
    (e : VersionRangesSpecifierError)
    (hc : from_pep440_specifier s = some (.error e)) : e = .invalidTildeEquals s := by
  by_cases hop : s.operator = .tildeEqual
  · rcases s with ⟨op, v⟩
    cases hop
    cases hi : tildeSplit v.release with
    | none =>
      simp only [from_pep440_specifier, hi, Option.some.injEq] at hc
      injection hc with hc'
      exact hc'.symm
    | some inc => simp [from_pep440_specifier, hi] at hc
  · exact absurd hc (from_pep440_specifier_ne_error_of_ne_tilde s hop e)

theorem from_release_specifier_error_shape (s : VersionSpecifier)
    (e : VersionRangesSpecifierError)
    (hc : from_release_specifier s = some (.error e)) : e = .invalidTildeEquals s := by
  by_cases hop : s.operator = .tildeEqual
  · rcases s with ⟨op, v⟩
    cases hop
    cases hi : tildeSplit v.release with
    | none =>
      simp only [from_release_specifier, hi, Option.some.injEq] at hc
      injection hc with hc'
      exact hc'.symm
    | some inc => simp [from_release_specifier, hi] at hc
  · exact absurd hc (from_release_specifier_ne_error_of_ne_tilde s hop e)

/-- C8: In both modes, converting a single specifier returns an error if and
only if its operator is TildeEqual and its version's release has fewer than
two segments, and that error is the single InvalidTildeEquals variant
carrying the offending specifier; every other operator/version combination
(on a structurally valid specifier, i.e. one whose version has a non-empty
release) returns Ok; and converting a specifier set returns the error of the
leftmost failing member, in sequence order. -/
theorem claim_C8 :
    (∀ s, from_pep440_specifier s = some (.error (.invalidTildeEquals s))
        ↔ (s.operator = .tildeEqual ∧ s.version.release.length < 2)) ∧
    (∀ s, from_release_specifier s = some (.error (.invalidTildeEquals s))
        ↔ (s.operator = .tildeEqual ∧ s.version.release.length < 2)) ∧
    (∀ s e, from_pep440_specifier s = some (.error e) →
      e = .invalidTildeEquals s) ∧
    (∀ s e, from_release_specifier s = some (.error e) →
      e = .invalidTildeEquals s) ∧
    (∀ s, s.version.release ≠ [] →
      ¬(s.operator = .tildeEqual ∧ s.version.release.length < 2) →
      (∃ r, from_pep440_specifier s = some (.ok r)) ∧
      (∃ r, from_release_specifier s = some (.ok r))) ∧
    (∀ init s rest e,
      (∀ p ∈ init, ∃ rp, from_pep440_specifier p = some (.ok rp)) →
      from_pep440_specifier s = some (.error e) →
      from_pep440_specifiers (init ++ s :: rest) = some (.error e)) ∧
    (∀ init s rest e,
      (∀ p ∈ init, ∃ rp, from_release_specifier p = some (.ok rp)) →
      from_release_specifier s = some (.error e) →
      from_release_specifiers (init ++ s :: rest) = some (.error e)) := by
  refine ⟨from_pep440_specifier_error_iff, from_release_specifier_error_iff,
    from_pep440_specifier_error_shape, from_release_specifier_error_shape,
    fun s hne h => ⟨from_pep440_specifier_ok s hne h, from_release_specifier_ok s hne h⟩,
    fun init s rest e hall hs => pep440Fold_error_append init VRanges.full s rest e hall hs,
    fun init s rest e hall hs => releaseFold_error_append init VRanges.full s rest e hall hs⟩

theorem claim_C8_witness :
    (from_pep440_specifier ⟨.tildeEqual, ⟨0, [5], none, none, none, none, none⟩⟩
        = some (.error (.invalidTildeEquals
            ⟨.tildeEqual, ⟨0, [5], none, none, none, none, none⟩⟩))
      ↔ ((⟨.tildeEqual, ⟨0, [5], none, none, none, none, none⟩⟩ :
          VersionSpecifier).operator = .tildeEqual ∧
        (⟨.tildeEqual, ⟨0, [5], none, none, none, none, none⟩⟩ :
          VersionSpecifier).version.release.length < 2)) ∧
    (∃ r, from_pep440_specifier ⟨.equal, ⟨0, [5], none, none, none, none, none⟩⟩
        = some (.ok r)) ∧
    from_pep440_specifiers
        [⟨.equal, ⟨0, [5], none, none, none, none, none⟩⟩,
         ⟨.tildeEqual, ⟨0, [5], none, none, none, none, none⟩⟩]
      = some (.error (.invalidTildeEquals
          ⟨.tildeEqual, ⟨0, [5], none, none, none, none, none⟩⟩)) :=
  ⟨claim_C8.1 ⟨.tildeEqual, ⟨0, [5], none, none, none, none, none⟩⟩,
    (claim_C8.2.2.2.2.1 ⟨.equal, ⟨0, [5], none, none, none, none, none⟩⟩
      (by decide) (by decide)).1,
    claim_C8.2.2.2.2.2.1
      [⟨.equal, ⟨0, [5], none, none, none, none, none⟩⟩]
      ⟨.tildeEqual, ⟨0, [5], none, none, none, none, none⟩⟩ [] _
      (fun p hp => by
        rw [List.mem_singleton] at hp
        subst hp
        exact ⟨⟨VRanges.singleton ⟨0, [5], none, none, none, none, none⟩⟩, rfl⟩)
      (by decide)⟩

/-- C9: For every specifier whose version has a non-empty release-segment
sequence, both `from_pep440_specifier` and `from_release_specifier` are
total: they always return a value (Ok or the InvalidTildeEquals error) and
never panic — in particular the EqualStar and NotEqualStar branches, which
take and increment the last release segment, cannot fail under that
precondition. -/
theorem claim_C9 (s : VersionSpecifier) (h : s.version.release ≠ []) :
    (from_pep440_specifier s).isSome = true ∧
    (from_release_specifier s).isSome = true := by
  rcases s with ⟨op, v⟩
  have hinc : ∃ inc, incrementLast v.release = some inc := by
    have := incrementLast_isSome v.release h
    cases hi : incrementLast v.release
    · rw [hi] at this; simp at this
    · exact ⟨_, rfl⟩
  obtain ⟨inc, hinc⟩ := hinc
  constructor
  · cases op
    case tildeEqual =>
      cases hi : tildeSplit v.release <;>
        simp [from_pep440_specifier, hi]
    case lessThan =>
      by_cases hp : v.any_prerelease <;>
        simp [from_pep440_specifier, hp]
    case greaterThan =>
      cases hd : v.dev
      · cases hq : v.post <;> simp [from_pep440_specifier, hd, hq]
      · simp [from_pep440_specifier, hd]
    case equalStar =>
      cases hq : v.post
      · cases hpr : v.pre <;>
          simp [from_pep440_specifier, Version.with_dev, hq, hpr, hinc]
      · simp [from_pep440_specifier, Version.with_dev, hq]
    case notEqualStar =>
      cases hq : v.post
      · cases hpr : v.pre <;>
          simp [from_pep440_specifier, Version.with_dev, hq, hpr, hinc]
      · simp [from_pep440_specifier, Version.with_dev, hq]
    all_goals simp [from_pep440_specifier]
  · cases op
    case tildeEqual =>
      cases hi : tildeSplit v.release <;>
        simp [from_release_specifier, hi]
    case equalStar =>
      simp [from_release_specifier, Version.only_release, hinc]
    case notEqualStar =>
      simp [from_release_specifier, Version.only_release, hinc]
    all_goals simp [from_release_specifier]

theorem claim_C9_witness :
    (⟨0, [9], none, none, none, none, none⟩ : Version).release ≠ [] ∧
    (from_pep440_specifier
        ⟨.equalStar, ⟨0, [9], none, none, none, none, none⟩⟩).isSome = true ∧
    (from_release_specifier
        ⟨.equalStar, ⟨0, [9], none, none, none, none, none⟩⟩).isSome = true :=
  ⟨by decide,
    (claim_C9 ⟨.equalStar, ⟨0, [9], none, none, none, none, none⟩⟩ (by decide)).1,
    (claim_C9 ⟨.equalStar, ⟨0, [9], none, none, none, none, none⟩⟩ (by decide)).2⟩

/-- C10: For every range `r` of versions, converting `r` into a
`VersionRangesSpecifier` via `From` and converting the result back into a
range via `From` yields `r` unchanged; and the wrapper's `iter` and
`bounding_range` accessors return exactly the iteration and bounding range
of the wrapped underlying range. -/
theorem claim_C10 :
    (∀ r : VRanges, (VersionRangesSpecifier.fromRanges r).toRanges = r) ∧
    (∀ w : VersionRangesSpecifier, w.iter = w.ranges.iter) ∧
    (∀ w : VersionRangesSpecifier, w.bounding_range = w.ranges.bounding_range) :=
  ⟨fun _ => rfl, fun _ => rfl, fun _ => rfl⟩
